import Mathlib

/-!
Verification of the graph/tree selection logic of the harosvar visualization
widget (src/viz/js/views/ros.js and src/viz/js/views/collapsible-tree.js).

The development embeds the relevant functions shallowly:

* `_nameMatch` (ros.js): wildcard matching of resource names over segment
  lists.  The JS function recurses with a measure that is not structural, so
  the embedding `nmFuelO` takes explicit fuel (returning `none` when the fuel
  runs out) and `nameMatch` instantiates the fuel with the recursion-depth
  bound `len1 + len2 + 1`; `nmFuelO_eq_some` shows any fuel above the sum of
  remaining segment counts yields the same defined result.
* `updateVisibility` (ros.js): visibility subsets of the dagre graph.
* `cgRequestData` (ros.js): the request body of `POST /cg/calculate`.
* the selection/value propagation of the collapsible feature tree
  (collapsible-tree.js): `propagateArgSelection`, `propagateValueSelection`,
  `propagateRosLaunchSelection`, `setValueSelected`, `onSelectRosLaunch`
  and the value-tree label click handler.
-/


/-- Nonempty suffixes of a list, in order of increasing start index.
`neTails (a2.drop j)` enumerates exactly the lists `a2.drop k` for
`j ≤ k < a2.length`, i.e. the argument suffixes tried by the inner
`for (k = j; k < len2; ++k)` loop of `_nameMatch`. -/
def neTails {α : Type} : List α → List (List α)
  | [] => []
  | x :: xs => (x :: xs) :: neTails xs

/-- Short-circuiting disjunction over fallible boolean computations: the
`for`/`if/return true` loop of `_nameMatch`, with `none` propagated when an
inner call runs out of fuel. -/
def anyO {α : Type} (f : α → Option Bool) : List α → Option Bool
  | [] => some false
  | t :: ts =>
    match f t with
    | none => none
    | some true => some true
    | some false => anyO f ts

/-- Fuelled embedding of `_nameMatch(a1, k1, a2, k2)` from ros.js, acting on
the remaining segment suffixes `a1.drop k1` and `a2.drop k2`.  Mirrors the
source: the main loop compares segments pairwise; a `"?"` in the first list
takes precedence, matches everything when it is the last segment, and
otherwise tries every nonempty suffix of the second list for the remainder;
symmetrically for a `"?"` in the second list; the loop ends successfully only
when both lists are exhausted together.  `none` means the fuel ran out. -/
def nmFuelO : Nat → List String → List String → Option Bool
  | 0, _, _ => none
  | n + 1, l1, l2 =>
    match l1, l2 with
    | [], [] => some true
    | [], _ :: _ => some false
    | _ :: _, [] => some false
    | x :: xs, y :: ys =>
      if x = "?" then
        if xs = [] then some true
        else anyO (fun t => nmFuelO n xs t) (neTails (y :: ys))
      else if y = "?" then
        if ys = [] then some true
        else anyO (fun t => nmFuelO n t ys) (neTails (x :: xs))
      else if x = y then nmFuelO n xs ys
      else some false

/-- Total wildcard matcher: `_nameMatch(a1, 0, a2, 0)` on segment lists,
run with enough fuel (`nmFuelO_eq_some` below shows the default of `getD`
is never used). -/
def nameMatch (l1 l2 : List String) : Bool :=
  (nmFuelO (l1.length + l2.length + 1) l1 l2).getD false

/-- Splitting a character list on the slash character, mirroring the
semantics of JavaScript `String.prototype.split("/")` (a leading slash
yields a leading empty segment). -/
def splitChars : List Char → List (List Char)
  | [] => [[]]
  | c :: cs =>
    match splitChars cs with
    | [] => [[c]]
    | g :: gs => if c = '/' then [] :: g :: gs else (c :: g) :: gs

/-- Embedding of `name.split("/")` as used by `_connectUnknown` in ros.js. -/
def splitSlash (s : String) : List String :=
  (splitChars s.data).map (fun cs => String.mk cs)

/-- Recursive form of "every segment is the wildcard". -/
def allQ : List String → Bool
  | [] => true
  | s :: ss => (s == "?") && allQ ss

/-! Graph visibility (`RosStaticGraph.updateVisibility`, ros.js 249-300). -/

/-- A node view of the dagre graph: the Backbone model id (nodes are keyed
by it in the graph), the model's `resourceType`, and the mutable `visible`
flag. -/
structure NodeV where
  id : String
  resourceType : String
  visible : Bool
deriving DecidableEq, Repr

/-- An edge value of the dagre graph: the edge key endpoints `v`/`w`
(source and target node ids, as used by `hasEdge` and the focus test), the
`resourceType` of the source and target node views referenced by the edge
object, and the mutable `visible` flag. -/
structure EdgeV where
  v : String
  w : String
  sourceType : String
  targetType : String
  visible : Bool
deriving DecidableEq, Repr

/-- The state read by `updateVisibility`: the full graph plus the
`showParams` toggle and the focused node (`focus`, by model id; node views
are keyed by unique model ids, so reference equality with `this.focus` is
id equality). -/
structure GraphState where
  nodes : List NodeV
  edges : List EdgeV
  showParams : Bool
  focus : Option String
deriving DecidableEq, Repr

/-- The graph returned by `updateVisibility` (either `this.graph` itself or
the freshly built `visibleGraph`), as its node and edge collections. -/
structure VisibleGraph where
  nodes : List NodeV
  edges : List EdgeV
deriving DecidableEq, Repr

/-- Embedding of `this.graph.hasEdge(a, b)` on the full graph. -/
def hasEdgeB (st : GraphState) (a b : String) : Bool :=
  st.edges.any (fun e => e.v == a && e.w == b)

/-- First pass over nodes: `visible = true` when `showParams`, otherwise
`visible = resourceType !== "param"`. -/
def setNodeVisibility (sp : Bool) (n : NodeV) : NodeV :=
  if sp then { n with visible := true }
  else { n with visible := n.resourceType != "param" }

/-- First pass over edges: `visible = true` when `showParams`, otherwise
`visible` iff neither endpoint is a parameter. -/
def setEdgeVisibility (sp : Bool) (e : EdgeV) : EdgeV :=
  if sp then { e with visible := true }
  else { e with visible := (e.sourceType != "param") && (e.targetType != "param") }

/-- Focus pass over nodes: keep a node visible only if it is the focus
itself or the full graph has an edge between it and the focus. -/
def focusNodeVis (st : GraphState) (fId : String) (n : NodeV) : NodeV :=
  { n with visible := n.visible
      && (n.id == fId || hasEdgeB st n.id fId || hasEdgeB st fId n.id) }

/-- Focus pass over edges: keep an edge visible only if one of its key
endpoints is the focus. -/
def focusEdgeVis (fId : String) (e : EdgeV) : EdgeV :=
  { e with visible := e.visible && (e.v == fId || e.w == fId) }

/-- Embedding of `updateVisibility` (ros.js 249-300): runs the `showParams` pass over all
nodes and edges of the full graph; returns the full graph when `showParams`
is on and no focus is set; otherwise builds `visibleGraph` from the visible
nodes and edges, additionally restricted to the focus neighbourhood when a
focus is set.  The first component is the mutated graph state, the second
the returned graph. -/
def updateVisibility (st : GraphState) : GraphState × VisibleGraph :=
  if st.showParams = true ∧ st.focus = none then
    ({ st with nodes := st.nodes.map (setNodeVisibility st.showParams),
               edges := st.edges.map (setEdgeVisibility st.showParams) },
      ⟨st.nodes.map (setNodeVisibility st.showParams),
        st.edges.map (setEdgeVisibility st.showParams)⟩)
  else
    match st.focus with
    | some fId =>
      ({ st with
          nodes := (st.nodes.map (setNodeVisibility st.showParams)).map
            (focusNodeVis st fId),
          edges := (st.edges.map (setEdgeVisibility st.showParams)).map
            (focusEdgeVis fId) },
        ⟨((st.nodes.map (setNodeVisibility st.showParams)).map
            (focusNodeVis st fId)).filter (fun n => n.visible),
          ((st.edges.map (setEdgeVisibility st.showParams)).map
            (focusEdgeVis fId)).filter (fun e => e.visible)⟩)
    | none =>
      ({ st with nodes := st.nodes.map (setNodeVisibility st.showParams),
                 edges := st.edges.map (setEdgeVisibility st.showParams) },
        ⟨(st.nodes.map (setNodeVisibility st.showParams)).filter
            (fun n => n.visible),
          (st.edges.map (setEdgeVisibility st.showParams)).filter
            (fun e => e.visible)⟩)

def exGraphFocus : GraphState :=
  { nodes := [⟨"n1", "node", false⟩, ⟨"t1", "topic", false⟩,
      ⟨"p1", "param", false⟩],
    edges := [⟨"n1", "t1", "node", "topic", false⟩,
      ⟨"n1", "p1", "node", "param", false⟩],
    showParams := false,
    focus := some "n1" }

def exGraphNoFocus : GraphState :=
  { nodes := [⟨"n1", "node", false⟩, ⟨"p1", "param", true⟩],
    edges := [⟨"n1", "p1", "node", "param", true⟩],
    showParams := false,
    focus := none }

/-! Calculate-CG request body (`RosSystemView.cgRequestData`, ros.js 948-988). -/

/-- A value child of an arg in the feature model (`d3` in the source):
`selected` is the JS tri-state `true`/`false`/`null`, `value` may be absent. -/
structure FValue where
  name : String
  value : Option String
  resolved : Bool
  selected : Option Bool
deriving DecidableEq, Repr

/-- An arg child of a launch file (`d2` in the source). -/
structure FArg where
  name : String
  selected : Option Bool
  children : List FValue
deriving DecidableEq, Repr

/-- A top-level launch-file child of the feature model (`d1` in the source). -/
structure FLaunch where
  name : String
  selected : Option Bool
  children : List FArg
deriving DecidableEq, Repr

/-- The feature model attributes read by `cgRequestData`. -/
structure FeatureModel where
  id : String
  children : List FLaunch
deriving DecidableEq, Repr

/-- The request body of `POST /cg/calculate`: `args` objects are modelled as
association lists in insertion order. -/
structure CGRequest where
  project : String
  launch : List (String × List (String × Option String))
  discard : List String
deriving DecidableEq, Repr

/-- The value computed for one arg `d2` of a selected launch file: when the
arg is selected (strictly true), the first value child with a truthy
`selected` yields `d3.name` if resolved and `d3.value` otherwise; in every
other case the value stays `null`. -/
def argEntry (d2 : FArg) : Option String :=
  if d2.selected == some true then
    match d2.children.find? (fun d3 => d3.selected == some true) with
    | some d3 => if d3.resolved then some d3.name else d3.value
    | none => none
  else none

/-- The `args` object built for one selected launch file: one entry per arg
child, in order. -/
def launchArgs (d1 : FLaunch) : List (String × Option String) :=
  d1.children.map (fun d2 => (d2.name, argEntry d2))

/-- The launch-file loop of `cgRequestData`: launch files with `selected ==
null` are skipped, strictly selected ones push a `{name, args}` entry onto
`launch`, strictly deselected ones push their name onto `discard`. -/
def cgLoop : List FLaunch → List (String × List (String × Option String)) × List String
  | [] => ([], [])
  | d1 :: rest =>
    let r := cgLoop rest
    match d1.selected with
    | none => r
    | some true => ((d1.name, launchArgs d1) :: r.1, r.2)
    | some false => (r.1, d1.name :: r.2)

/-- Embedding of `cgRequestData` from ros.js 948-988. -/
def cgRequestData (fm : FeatureModel) : CGRequest :=
  { project := fm.id
    launch := (cgLoop fm.children).1
    discard := (cgLoop fm.children).2 }

def exValueA : FValue :=
  { name := "v1", value := some "x", resolved := true, selected := some true }

def exArgSel : FArg :=
  { name := "argA", selected := some true, children := [exValueA] }

def exArgNull : FArg :=
  { name := "argB", selected := none, children := [] }

def exLaunchA : FLaunch :=
  { name := "a.launch", selected := some true,
    children := [exArgSel, exArgNull] }

def exFM : FeatureModel :=
  { id := "p1",
    children := [exLaunchA,
      { name := "b.launch", selected := some false, children := [] }] }

/-! Feature-tree selection propagation (collapsible-tree.js 745-1237). -/

/-- JavaScript truthiness of a `true`/`false`/`null` tri-state. -/
def truthy : Option Bool → Bool
  | some true => true
  | _ => false

/-- A value node of the feature tree: `d.id` (d3 node id, used by
`previousValue`), the datum fields `data.selected`/`data.resolved`, and the
UI fields `ui.selected`/`ui.value`/`ui.name`. -/
structure VNode where
  id : Nat
  dataSelected : Option Bool
  dataResolved : Bool
  uiSelected : Option Bool
  uiValue : Option String
  uiName : String
deriving DecidableEq, Repr

/-- An arg node of the feature tree with its value children. -/
structure ANode where
  name : String
  dataSelected : Option Bool
  uiSelected : Option Bool
  dataDefaultValue : Option Nat
  uiPreviousValue : Option Nat
  children : List VNode
deriving DecidableEq, Repr

/-- A roslaunch node of the feature tree with its arg children (the
`children || _children` alternative is modelled as a single list: collapsing
moves the same objects between the two fields). -/
structure LNode where
  dataSelected : Option Bool
  uiSelected : Option Bool
  children : List ANode
deriving DecidableEq, Repr

/-- Embedding of `setValueSelected(d, ask)` (collapsible-tree.js 987-1003).  `pr` models
the return of `window.prompt` (`none` = dialog dismissed, the empty string
is falsy as in JS); a `none` result models the cancelled path
(`return false`), otherwise the updated value node is returned (the JS
mutates `d` in place and returns `true`; every non-cancelled path ends with
`d.data.selected = true`). -/
def setValueSelected (d : VNode) (ask : Bool) (pr : Option String) :
    Option VNode :=
  if !d.dataResolved then
    if ask || d.uiValue.isNone then
      match pr with
      | none => none
      | some s =>
        if s.isEmpty then none
        else
          some { d with
                  uiValue := some s, uiName := s ++ " (*)",
                  uiSelected := some true, dataSelected := some true }
    else
      some { d with uiSelected := none, dataSelected := some true }
  else
    some { d with uiSelected := some true, dataSelected := some true }

/-- First loop of the selecting branch of `propagateArgSelection`: set every
value child to `false` in both the UI and the data. -/
def resetChildren (a : ANode) : List VNode :=
  a.children.map (fun d =>
    { d with uiSelected := some false, dataSelected := some false })

/-- Index selection of `propagateArgSelection`: `defaultValue || 0`, or the
index of the previously selected value when `ui.previousValue` is set and
found among the children. -/
def chosenIdx (a : ANode) (cs : List VNode) : Nat :=
  match a.uiPreviousValue with
  | none => a.dataDefaultValue.getD 0
  | some prev =>
    match cs.findIdx? (fun c => c.id == prev) with
    | some j => j
    | none => a.dataDefaultValue.getD 0

/-- Embedding of `propagateArgSelection` (collapsible-tree.js 934-968).  Returns `none`
for the out-of-range `children[i]` access (a TypeError in JS); otherwise
`some (updated arg, ok)` where `ok` is the JS return value (`false` when
the `setValueSelected` prompt was cancelled; the resets of the value
children persist in that case, as in the source, and `ui.previousValue` is
updated only on success). -/
def propagateArgSelection (a : ANode) (pr : Option String) :
    Option (ANode × Bool) :=
  if truthy a.dataSelected then
    match (resetChildren a)[chosenIdx a (resetChildren a)]? with
    | none => none
    | some c =>
      match setValueSelected c false pr with
      | none => some ({ a with children := resetChildren a }, false)
      | some d1 => some ({ a with
          children := (resetChildren a).set (chosenIdx a (resetChildren a)) d1,
          uiPreviousValue := some d1.id }, true)
  else
    some ({ a with children := a.children.map (fun d =>
      { d with
          dataSelected := a.dataSelected,
          uiSelected := a.dataSelected }) }, true)

/-- Embedding of `propagateRosLaunchSelection` (collapsible-tree.js 904-932): when the
launch file is selected, every not-already-selected arg is set to `null` and
null-propagated; when it is deselected or unknown, every arg is set to
`null`, null-propagated, and then set to the launch file's state.  The
null-propagation never prompts and never indexes out of range, so the JS
`console.assert(ok)` holds; `none` results are propagated for totality. -/
def propagateRosLaunchSelection (l : LNode) : Option LNode :=
  if truthy l.dataSelected then
    match l.children.mapM (fun d =>
      if truthy d.dataSelected then some d
      else
        match propagateArgSelection
            { d with uiSelected := none, dataSelected := none } none with
        | some p => some p.1
        | none => none) with
    | some cs => some { l with children := cs }
    | none => none
  else
    match l.children.mapM (fun d =>
      match propagateArgSelection
          { d with uiSelected := none, dataSelected := none } none with
      | some p =>
        some { p.1 with
                uiSelected := l.dataSelected,
                dataSelected := l.dataSelected }
      | none => none) with
    | some cs => some { l with children := cs }
    | none => none

/-- Embedding of `propagateValueSelection` (collapsible-tree.js 970-985), acting on the
launch subtree containing the source value node: `ai` locates the arg
parent among the launch file's children and `vi` the source value node among
the arg's children (the JS walks `source.parent` pointers instead).
Out-of-range indices model the JS crash; the return value of the final
`propagateArgSelection` is discarded exactly as in the source. -/
def propagateValueSelection (l : LNode) (ai vi : Nat) (pr : Option String) :
    Option LNode :=
  match l.children[ai]? with
  | none => none
  | some arg0 =>
    match arg0.children[vi]? with
    | none => none
    | some src =>
      match (if truthy l.dataSelected then some l
             else propagateRosLaunchSelection
               { l with dataSelected := some true }) with
      | none => none
      | some l1 =>
        match l1.children[ai]? with
        | none => none
        | some arg1 =>
          match propagateArgSelection
              { arg1 with
                  uiSelected := some true, dataSelected := some true,
                  uiPreviousValue := some src.id } pr with
          | none => none
          | some p => some { l1 with children := l1.children.set ai p.1 }

def exVal1 : VNode :=
  { id := 1, dataSelected := some true, dataResolved := true,
    uiSelected := some true, uiValue := none, uiName := "v1" }

def exVal2 : VNode :=
  { id := 2, dataSelected := some false, dataResolved := true,
    uiSelected := some false, uiValue := none, uiName := "v2" }

def exArgX : ANode :=
  { name := "argX", dataSelected := some true, uiSelected := some true,
    dataDefaultValue := none, uiPreviousValue := none,
    children := [exVal1, exVal2] }

def exArgXres : ANode :=
  ((propagateArgSelection exArgX none).getD (exArgX, false)).1

def exLaunchY : LNode :=
  { dataSelected := some true, uiSelected := some true, children := [exArgX] }

def exLaunchYres : LNode :=
  (propagateValueSelection exLaunchY 0 0 none).getD exLaunchY

/-- The tri-state cycle `true → false → null → true` stepped by the label
click handlers. -/
def cycleSel : Option Bool → Option Bool
  | some true => some false
  | some false => none
  | none => some true

/-- Embedding of `onSelectRosLaunch` (collapsible-tree.js 829-847): when the UI selection
state disagrees with the data selection state, the click only copies the
data state into the UI state; otherwise both states advance along the
cycle and the new state is propagated to the arg children. -/
def onSelectRosLaunch (l : LNode) : Option LNode :=
  if l.uiSelected ≠ l.dataSelected then
    some { l with uiSelected := l.dataSelected }
  else
    propagateRosLaunchSelection
      { l with
          dataSelected := cycleSel l.dataSelected,
          uiSelected := cycleSel l.dataSelected }

/-- Effect of `onValueLabelClick` (collapsible-tree.js 448-465) on the
clicked node's datum fields `(value, userValue)`.  The handler cycles the
node's `value` field based on its current value and sets `userValue` to the
same new state, unconditionally; the subsequent `propagateSelection` call
touches only ancestors and descendants of the clicked node, never these two
fields of the clicked node itself. -/
def onValueLabelClickDatum (value userValue : Option Bool) :
    Option Bool × Option Bool :=
  if truthy value then (some false, some false)
  else if value == some false then (none, none)
  else (some true, some true)

def exLaunchZ : LNode :=
  { dataSelected := some true, uiSelected := some true, children := [] }

def exLaunchZres : LNode :=
  (onSelectRosLaunch exLaunchZ).getD exLaunchZ

theorem mem_neTails_length_le {α : Type} {t l : List α} (h : t ∈ neTails l) :
    t.length ≤ l.length := by
  induction l with
  | nil => simp [neTails] at h
  | cons x xs ih =>
    simp only [neTails, List.mem_cons] at h
    rcases h with rfl | h
    · exact Nat.le_refl _
    · exact Nat.le_trans (ih h) (by simp)

theorem anyO_eq_some_any {α : Type} (f : α → Option Bool) (g : α → Bool) :
    ∀ (l : List α), (∀ a ∈ l, f a = some (g a)) →
      anyO f l = some (l.any g) := by
  intro l
  induction l with
  | nil => intro _; rfl
  | cons a as ih =>
    intro h
    have ha := h a (List.mem_cons_self a as)
    have hrest := fun b hb => h b (List.mem_cons_of_mem a hb)
    cases hga : g a with
    | true => simp [anyO, ha, hga]
    | false => simp [anyO, ha, hga, ih hrest]

/-- One-step unfolding of the fuelled matcher in the main (cons/cons) case. -/
theorem nmFuelO_succ (n : Nat) (x y : String) (xs ys : List String) :
    nmFuelO (n + 1) (x :: xs) (y :: ys) =
      if x = "?" then
        if xs = [] then some true
        else anyO (fun t => nmFuelO n xs t) (neTails (y :: ys))
      else if y = "?" then
        if ys = [] then some true
        else anyO (fun t => nmFuelO n t ys) (neTails (x :: xs))
      else if x = y then nmFuelO n xs ys
      else some false := rfl

/-- Any fuel strictly above the sum of the two remaining segment counts is
enough: the fuelled matcher is defined and agrees with `nameMatch`.  This is
the formal counterpart of the termination measure of `_nameMatch`: every
recursive call strictly decreases `(len1 - k1) + (len2 - k2)`. -/
theorem nmFuelO_eq_some :
    ∀ (n : Nat) (l1 l2 : List String), l1.length + l2.length < n →
      nmFuelO n l1 l2 = some (nameMatch l1 l2) := by
  intro n
  induction n using Nat.strong_induction_on with
  | _ n IH =>
    intro l1 l2 hlt
    cases n with
    | zero => omega
    | succ m =>
      cases l1 with
      | nil =>
        cases l2 with
        | nil => rfl
        | cons y ys => rfl
      | cons x xs =>
        cases l2 with
        | nil => rfl
        | cons y ys =>
          rw [nmFuelO_succ]
          have hSlt : (x :: xs).length + (y :: ys).length < m + 1 := hlt
          -- inner sums are strictly below both the fuel `m` of the left side
          -- and the fuel `S = (x::xs).length + (y::ys).length` of `nameMatch`
          rw [show nameMatch (x :: xs) (y :: ys) =
              ((nmFuelO ((x :: xs).length + (y :: ys).length + 1) (x :: xs)
                (y :: ys)).getD false) from rfl, nmFuelO_succ]
          by_cases hx : x = "?"
          · by_cases hxs : xs = []
            · simp [hx, hxs]
            · simp only [if_pos hx, if_neg hxs]
              have h1 : ∀ t ∈ neTails (y :: ys),
                  nmFuelO m xs t = some (nameMatch xs t) := by
                intro t ht
                have hb := mem_neTails_length_le ht
                apply IH m (Nat.lt_succ_self m)
                simp only [List.length_cons] at hb hSlt ⊢
                omega
              have h2 : ∀ t ∈ neTails (y :: ys),
                  nmFuelO ((x :: xs).length + (y :: ys).length) xs t
                    = some (nameMatch xs t) := by
                intro t ht
                have hb := mem_neTails_length_le ht
                apply IH _ hSlt
                simp only [List.length_cons] at hb ⊢
                omega
              rw [anyO_eq_some_any _ (fun t => nameMatch xs t) _ h1,
                anyO_eq_some_any _ (fun t => nameMatch xs t) _ h2]
              rfl
          · by_cases hy : y = "?"
            · by_cases hys : ys = []
              · simp [hx, hy, hys]
              · simp only [if_neg hx, if_pos hy, if_neg hys]
                have h1 : ∀ t ∈ neTails (x :: xs),
                    nmFuelO m t ys = some (nameMatch t ys) := by
                  intro t ht
                  have hb := mem_neTails_length_le ht
                  apply IH m (Nat.lt_succ_self m)
                  simp only [List.length_cons] at hb hSlt ⊢
                  omega
                have h2 : ∀ t ∈ neTails (x :: xs),
                    nmFuelO ((x :: xs).length + (y :: ys).length) t ys
                      = some (nameMatch t ys) := by
                  intro t ht
                  have hb := mem_neTails_length_le ht
                  apply IH _ hSlt
                  simp only [List.length_cons] at hb ⊢
                  omega
                rw [anyO_eq_some_any _ (fun t => nameMatch t ys) _ h1,
                  anyO_eq_some_any _ (fun t => nameMatch t ys) _ h2]
                rfl
            · by_cases hxy : x = y
              · simp only [if_neg hx, if_neg hy, if_pos hxy]
                have h1 : nmFuelO m xs ys = some (nameMatch xs ys) := by
                  apply IH m (Nat.lt_succ_self m)
                  simp only [List.length_cons] at hSlt
                  omega
                have h2 : nmFuelO ((x :: xs).length + (y :: ys).length) xs ys
                    = some (nameMatch xs ys) := by
                  apply IH _ hSlt
                  simp only [List.length_cons]
                  omega
                rw [h1, h2]
                rfl
              · simp [hx, hy, hxy]

theorem nameMatch_nil_nil : nameMatch [] [] = true := rfl

theorem nameMatch_nil_cons (y : String) (ys : List String) :
    nameMatch [] (y :: ys) = false := rfl

theorem nameMatch_cons_nil (x : String) (xs : List String) :
    nameMatch (x :: xs) [] = false := rfl

/-- Derived recursion equation for the total matcher in the cons/cons case. -/
theorem nameMatch_cons_cons (x y : String) (xs ys : List String) :
    nameMatch (x :: xs) (y :: ys) =
      if x = "?" then
        if xs = [] then true
        else (neTails (y :: ys)).any (fun t => nameMatch xs t)
      else if y = "?" then
        if ys = [] then true
        else (neTails (x :: xs)).any (fun t => nameMatch t ys)
      else if x = y then nameMatch xs ys
      else false := by
  rw [show nameMatch (x :: xs) (y :: ys) =
      ((nmFuelO ((x :: xs).length + (y :: ys).length + 1) (x :: xs)
        (y :: ys)).getD false) from rfl, nmFuelO_succ]
  by_cases hx : x = "?"
  · by_cases hxs : xs = []
    · simp [hx, hxs]
    · simp only [if_pos hx, if_neg hxs]
      have h2 : ∀ t ∈ neTails (y :: ys),
          nmFuelO ((x :: xs).length + (y :: ys).length) xs t
            = some (nameMatch xs t) := by
        intro t ht
        have hb := mem_neTails_length_le ht
        apply nmFuelO_eq_some
        simp only [List.length_cons] at hb ⊢
        omega
      rw [anyO_eq_some_any _ (fun t => nameMatch xs t) _ h2]
      rfl
  · by_cases hy : y = "?"
    · by_cases hys : ys = []
      · simp [hx, hy, hys]
      · simp only [if_neg hx, if_pos hy, if_neg hys]
        have h2 : ∀ t ∈ neTails (x :: xs),
            nmFuelO ((x :: xs).length + (y :: ys).length) t ys
              = some (nameMatch t ys) := by
          intro t ht
          have hb := mem_neTails_length_le ht
          apply nmFuelO_eq_some
          simp only [List.length_cons] at hb ⊢
          omega
        rw [anyO_eq_some_any _ (fun t => nameMatch t ys) _ h2]
        rfl
    · by_cases hxy : x = y
      · simp only [if_neg hx, if_neg hy, if_pos hxy]
        have h2 : nmFuelO ((x :: xs).length + (y :: ys).length) xs ys
            = some (nameMatch xs ys) := by
          apply nmFuelO_eq_some
          simp only [List.length_cons]
          omega
        rw [h2]
        rfl
      · simp [hx, hy, hxy]

/-- C1: the wildcard matcher `_nameMatch`, applied to two resource names
split on "/" with both start indices 0, returns exactly the boolean listed
for each of the 24 documented test pairs in the source comment. -/
theorem c1_nameMatch_documented_tests :
    nameMatch (splitSlash "/ns/a") (splitSlash "/ns/a") = true
    ∧ nameMatch (splitSlash "/ns/a") (splitSlash "/a") = false
    ∧ nameMatch (splitSlash "/?/a") (splitSlash "/a") = true
    ∧ nameMatch (splitSlash "/?/a") (splitSlash "/ns/a") = true
    ∧ nameMatch (splitSlash "/?/a") (splitSlash "/ns/ns/a") = true
    ∧ nameMatch (splitSlash "/a") (splitSlash "/?/a") = true
    ∧ nameMatch (splitSlash "/ns/a") (splitSlash "/?/a") = true
    ∧ nameMatch (splitSlash "/ns/ns/a") (splitSlash "/?/a") = true
    ∧ nameMatch (splitSlash "/ns/?/a") (splitSlash "/ns/a") = true
    ∧ nameMatch (splitSlash "/ns/?/a") (splitSlash "/ns/ns/a") = true
    ∧ nameMatch (splitSlash "/ns/?/a") (splitSlash "/ns/ns/ns/a") = true
    ∧ nameMatch (splitSlash "/ns/?/b") (splitSlash "/ns/a") = false
    ∧ nameMatch (splitSlash "/ns/?") (splitSlash "/a") = false
    ∧ nameMatch (splitSlash "/ns/?") (splitSlash "/ns/a") = true
    ∧ nameMatch (splitSlash "/ns/?") (splitSlash "/ns/ns/a") = true
    ∧ nameMatch (splitSlash "/?") (splitSlash "/a") = true
    ∧ nameMatch (splitSlash "/?") (splitSlash "/ns/a") = true
    ∧ nameMatch (splitSlash "/?") (splitSlash "/?") = true
    ∧ nameMatch (splitSlash "/ns/?") (splitSlash "/?/a") = true
    ∧ nameMatch (splitSlash "/ns/?") (splitSlash "/ns/?") = true
    ∧ nameMatch (splitSlash "/ns/?") (splitSlash "/ns/?/a") = true
    ∧ nameMatch (splitSlash "/?/?") (splitSlash "/a") = true
    ∧ nameMatch (splitSlash "/?/?") (splitSlash "/ns/a") = true
    ∧ nameMatch (splitSlash "/?/?") (splitSlash "/ns/ns/a") = true := by
  decide

/-- C9: `_nameMatch` terminates on every pair of finite segment lists and
start indices: any fuel strictly larger than the measure
`(len1 - k1) + (len2 - k2)` suffices for the fuelled embedding to return a
boolean, namely the value of the total matcher. -/
theorem c9_nameMatch_termination (a1 a2 : List String) (k1 k2 : Nat)
    (n : Nat) (h : (a1.length - k1) + (a2.length - k2) < n) :
    nmFuelO n (List.drop k1 a1) (List.drop k2 a2)
      = some (nameMatch (List.drop k1 a1) (List.drop k2 a2)) := by
  apply nmFuelO_eq_some
  simpa [List.length_drop] using h

theorem c9_witness :
    ((["ns", "a"] : List String).length - 0)
        + ((["a"] : List String).length - 0) < 4
    ∧ nmFuelO 4 (List.drop 0 (["ns", "a"] : List String))
        (List.drop 0 (["a"] : List String))
      = some (nameMatch (List.drop 0 (["ns", "a"] : List String))
        (List.drop 0 (["a"] : List String))) :=
  ⟨by decide, c9_nameMatch_termination ["ns", "a"] ["a"] 0 0 4 (by decide)⟩

theorem nameMatch_qleft {xs : List String} (hxs : xs ≠ []) (y : String)
    (ys : List String) :
    nameMatch ("?" :: xs) (y :: ys)
      = (neTails (y :: ys)).any (fun t => nameMatch xs t) := by
  rw [nameMatch_cons_cons]
  simp [hxs]

theorem nameMatch_qright {x : String} (hx : x ≠ "?") (xs : List String)
    {ys : List String} (hys : ys ≠ []) :
    nameMatch (x :: xs) ("?" :: ys)
      = (neTails (x :: xs)).any (fun t => nameMatch t ys) := by
  rw [nameMatch_cons_cons]
  simp [hx, hys]

theorem nameMatch_qright_nil {x : String} (hx : x ≠ "?") (xs : List String) :
    nameMatch (x :: xs) ["?"] = true := by
  rw [nameMatch_cons_cons]
  simp [hx]

theorem nameMatch_lit {x y : String} (hx : x ≠ "?") (hy : y ≠ "?")
    (xs ys : List String) :
    nameMatch (x :: xs) (y :: ys) = if x = y then nameMatch xs ys else false := by
  rw [nameMatch_cons_cons]
  simp [hx, hy]

/-- Every nonempty name matches the single-segment wildcard name. -/
theorem nameMatch_any_qsingleton :
    ∀ {w : List String}, w ≠ [] → nameMatch w ["?"] = true := by
  intro w
  induction w with
  | nil => intro h; exact absurd rfl h
  | cons z zs ih =>
    intro _
    by_cases hz : z = "?"
    · subst hz
      by_cases hzs : zs = []
      · subst hzs
        rw [nameMatch_cons_cons]
        simp
      · rw [nameMatch_qleft hzs]
        simp [neTails, ih hzs]
    · exact nameMatch_qright_nil hz zs

/-- An all-wildcard nonempty name matches any single segment. -/
theorem nameMatch_allq_singleton :
    ∀ {xs : List String}, allQ xs = true → xs ≠ [] → ∀ z : String,
      nameMatch xs [z] = true := by
  intro xs
  induction xs with
  | nil => intro _ h; exact absurd rfl h
  | cons q qs ih =>
    intro hall _ z
    have hq : q = "?" ∧ allQ qs = true := by simpa [allQ] using hall
    obtain ⟨rfl, hq2⟩ := hq
    by_cases hqs : qs = []
    · subst hqs
      rw [nameMatch_cons_cons]
      simp
    · rw [nameMatch_qleft hqs]
      simp [neTails, ih hq2 hqs z]

/-- Any single segment matches an all-wildcard nonempty name. -/
theorem nameMatch_singleton_allq :
    ∀ {ys : List String}, allQ ys = true → ys ≠ [] → ∀ z : String,
      nameMatch [z] ys = true := by
  intro ys
  induction ys with
  | nil => intro _ h; exact absurd rfl h
  | cons q qs ih =>
    intro hall _ z
    have hq : q = "?" ∧ allQ qs = true := by simpa [allQ] using hall
    obtain ⟨rfl, hq2⟩ := hq
    by_cases hz : z = "?"
    · subst hz
      rw [nameMatch_cons_cons]
      simp
    · by_cases hqs : qs = []
      · subst hqs
        exact nameMatch_qright_nil hz []
      · rw [nameMatch_qright hz [] hqs]
        simp [neTails, ih hq2 hqs z]

/-- An all-wildcard nonempty name matches some nonempty suffix of any
nonempty list. -/
theorem neTails_any_left_allq {xs : List String} (hall : allQ xs = true)
    (hxs : xs ≠ []) :
    ∀ {l : List String}, l ≠ [] →
      (neTails l).any (fun t => nameMatch xs t) = true := by
  intro l
  induction l with
  | nil => intro h; exact absurd rfl h
  | cons y l' ih =>
    intro _
    by_cases hl' : l' = []
    · subst hl'
      simp [neTails, nameMatch_allq_singleton hall hxs y]
    · simp only [neTails, List.any_cons, ih hl', Bool.or_true]

/-- Some nonempty suffix of any nonempty list matches an all-wildcard
nonempty name. -/
theorem neTails_any_right_allq {ys : List String} (hall : allQ ys = true)
    (hys : ys ≠ []) :
    ∀ {l : List String}, l ≠ [] →
      (neTails l).any (fun t => nameMatch t ys) = true := by
  intro l
  induction l with
  | nil => intro h; exact absurd rfl h
  | cons x l' ih =>
    intro _
    by_cases hl' : l' = []
    · subst hl'
      simp [neTails, nameMatch_singleton_allq hall hys x]
    · simp only [neTails, List.any_cons, ih hl', Bool.or_true]

theorem list_any_congr {α : Type} {l : List α} {f g : α → Bool}
    (h : ∀ a ∈ l, f a = g a) : l.any f = l.any g := by
  induction l with
  | nil => rfl
  | cons a as ih =>
    simp only [List.any_cons, h a (List.mem_cons_self a as),
      ih (fun b hb => h b (List.mem_cons_of_mem a hb))]

/-- Closed form for matching against a name with a leading wildcard:
either the left name is all wildcards, or some nonempty suffix of the left
name matches the rest of the right name. -/
theorem nameMatch_qcons_right :
    ∀ (xs : List String), xs ≠ [] → ∀ (ys : List String), ys ≠ [] →
      nameMatch xs ("?" :: ys)
        = (allQ xs || (neTails xs).any (fun t => nameMatch t ys)) := by
  intro xs
  induction xs with
  | nil => intro h; exact absurd rfl h
  | cons z xs' ih =>
    intro _ ys hys
    by_cases hz : z = "?"
    · subst hz
      by_cases hxs' : xs' = []
      · subst hxs'
        rw [nameMatch_cons_cons]
        simp [allQ]
      · obtain ⟨w, ws, rfl⟩ := List.exists_cons_of_ne_nil hys
        rw [nameMatch_qleft hxs' "?" (w :: ws),
          show neTails ("?" :: w :: ws)
              = ("?" :: w :: ws) :: neTails (w :: ws) from rfl,
          List.any_cons]
        rw [ih hxs' (w :: ws) (List.cons_ne_nil w ws)]
        rw [show allQ ("?" :: xs') = ((("?" : String) == "?") && allQ xs')
            from rfl]
        rw [show neTails ("?" :: xs') = ("?" :: xs') :: neTails xs' from rfl,
          List.any_cons]
        rw [nameMatch_qleft hxs' w ws]
        cases h1 : allQ xs' <;>
          cases h2 : List.any (neTails xs') (fun t => nameMatch t (w :: ws)) <;>
            cases h3 : List.any (neTails (w :: ws))
                (fun t => nameMatch xs' t) <;>
              simp [h1, h2, h3]
    · rw [nameMatch_qright hz xs' hys]
      have hzb : (z == "?") = false := by simp [hz]
      simp [allQ, hzb]

/-- Symmetry of the matcher, by strong induction on the total number of
segments. -/
theorem nameMatch_comm_aux :
    ∀ (n : Nat) (u v : List String), u.length + v.length ≤ n →
      nameMatch u v = nameMatch v u := by
  intro n
  induction n with
  | zero =>
    intro u v h
    have hu : u = [] := List.length_eq_zero.mp (by omega)
    have hv : v = [] := List.length_eq_zero.mp (by omega)
    subst hu
    subst hv
    rfl
  | succ n IH =>
    intro u v h
    cases u with
    | nil =>
      cases v with
      | nil => rfl
      | cons y ys => rw [nameMatch_nil_cons, nameMatch_cons_nil]
    | cons x xs =>
      cases v with
      | nil => rw [nameMatch_cons_nil, nameMatch_nil_cons]
      | cons y ys =>
        have h' : xs.length + ys.length + 1 ≤ n := by
          simp only [List.length_cons] at h
          omega
        by_cases hx : x = "?"
        · subst hx
          by_cases hxs : xs = []
          · subst hxs
            have hL : nameMatch ["?"] (y :: ys) = true := by
              rw [nameMatch_cons_cons]
              simp
            rw [hL, nameMatch_any_qsingleton (List.cons_ne_nil y ys)]
          · by_cases hy : y = "?"
            · subst hy
              by_cases hys : ys = []
              · subst hys
                rw [nameMatch_any_qsingleton (List.cons_ne_nil "?" xs)]
                have hR : nameMatch ["?"] ("?" :: xs) = true := by
                  rw [nameMatch_cons_cons]
                  simp
                rw [hR]
              · rw [nameMatch_qleft hxs "?" ys, nameMatch_qleft hys "?" xs]
                rw [show neTails ("?" :: ys) = ("?" :: ys) :: neTails ys
                    from rfl,
                  show neTails ("?" :: xs) = ("?" :: xs) :: neTails xs
                    from rfl,
                  List.any_cons, List.any_cons]
                rw [nameMatch_qcons_right xs hxs ys hys,
                  nameMatch_qcons_right ys hys xs hxs]
                have flip1 : List.any (neTails ys) (fun t => nameMatch t xs)
                    = List.any (neTails ys) (fun t => nameMatch xs t) := by
                  apply list_any_congr
                  intro t ht
                  have hb := mem_neTails_length_le ht
                  exact IH t xs (by omega)
                have flip2 : List.any (neTails xs) (fun t => nameMatch ys t)
                    = List.any (neTails xs) (fun t => nameMatch t ys) := by
                  apply list_any_congr
                  intro t ht
                  have hb := mem_neTails_length_le ht
                  exact IH ys t (by omega)
                rw [flip1, flip2]
                cases hP : List.any (neTails xs) (fun t => nameMatch t ys) with
                | true => simp [hP]
                | false =>
                  cases hQ : List.any (neTails ys)
                      (fun t => nameMatch xs t) with
                  | true => simp [hQ]
                  | false =>
                    have hA : allQ xs = false := by
                      cases hA : allQ xs with
                      | false => rfl
                      | true =>
                        rw [neTails_any_left_allq hA hxs hys] at hQ
                        exact absurd hQ (by simp)
                    have hB : allQ ys = false := by
                      cases hB : allQ ys with
                      | false => rfl
                      | true =>
                        rw [neTails_any_right_allq hB hys hxs] at hP
                        exact absurd hP (by simp)
                    rw [hA, hB]
            · rw [nameMatch_qleft hxs y ys]
              rw [nameMatch_qcons_right (y :: ys) (List.cons_ne_nil y ys) xs
                hxs]
              have hyb : (y == "?") = false := by simp [hy]
              have hAQ : allQ (y :: ys) = false := by simp [allQ, hyb]
              rw [hAQ]
              simp only [Bool.false_or]
              apply list_any_congr
              intro t ht
              have hb := mem_neTails_length_le ht
              simp only [List.length_cons] at hb
              exact IH xs t (by omega)
        · by_cases hy : y = "?"
          · subst hy
            by_cases hys : ys = []
            · subst hys
              rw [nameMatch_qright_nil hx xs]
              have hR : nameMatch ["?"] (x :: xs) = true := by
                rw [nameMatch_cons_cons]
                simp
              rw [hR]
            · rw [nameMatch_qright hx xs hys, nameMatch_qleft hys x xs]
              apply list_any_congr
              intro t ht
              have hb := mem_neTails_length_le ht
              simp only [List.length_cons] at hb
              exact IH t ys (by omega)
          · rw [nameMatch_lit hx hy, nameMatch_lit hy hx]
            by_cases hxy : x = y
            · simp only [if_pos hxy, if_pos hxy.symm]
              exact IH xs ys (by omega)
            · have hyx : ¬ y = x := fun hh => hxy hh.symm
              simp [hxy, hyx]

/-- C10: `_nameMatch` is symmetric: for every pair of segment lists `a` and
`b`, `_nameMatch(a, 0, b, 0)` returns the same boolean as
`_nameMatch(b, 0, a, 0)`. -/
theorem c10_nameMatch_symmetric (a b : List String) :
    nameMatch a b = nameMatch b a :=
  nameMatch_comm_aux (a.length + b.length) a b (Nat.le_refl _)

theorem setNodeVisibility_id (sp : Bool) (n : NodeV) :
    (setNodeVisibility sp n).id = n.id := by cases sp <;> rfl

theorem setNodeVisibility_resourceType (sp : Bool) (n : NodeV) :
    (setNodeVisibility sp n).resourceType = n.resourceType := by
  cases sp <;> rfl

theorem setNodeVisibility_visible_false (n : NodeV) :
    (setNodeVisibility false n).visible = (n.resourceType != "param") := rfl

theorem setEdgeVisibility_v (sp : Bool) (e : EdgeV) :
    (setEdgeVisibility sp e).v = e.v := by cases sp <;> rfl

theorem setEdgeVisibility_w (sp : Bool) (e : EdgeV) :
    (setEdgeVisibility sp e).w = e.w := by cases sp <;> rfl

theorem setEdgeVisibility_sourceType (sp : Bool) (e : EdgeV) :
    (setEdgeVisibility sp e).sourceType = e.sourceType := by cases sp <;> rfl

theorem setEdgeVisibility_targetType (sp : Bool) (e : EdgeV) :
    (setEdgeVisibility sp e).targetType = e.targetType := by cases sp <;> rfl

theorem setEdgeVisibility_visible_false (e : EdgeV) :
    (setEdgeVisibility false e).visible
      = ((e.sourceType != "param") && (e.targetType != "param")) := rfl

/-- Unfolding of `updateVisibility` when a focus node is set. -/
theorem updateVisibility_focus (st : GraphState) (f : String)
    (hf : st.focus = some f) :
    updateVisibility st =
      ({ st with
          nodes := (st.nodes.map (setNodeVisibility st.showParams)).map
            (focusNodeVis st f),
          edges := (st.edges.map (setEdgeVisibility st.showParams)).map
            (focusEdgeVis f) },
        ⟨((st.nodes.map (setNodeVisibility st.showParams)).map
            (focusNodeVis st f)).filter (fun n => n.visible),
          ((st.edges.map (setEdgeVisibility st.showParams)).map
            (focusEdgeVis f)).filter (fun e => e.visible)⟩) := by
  unfold updateVisibility
  rw [hf, if_neg (by simp)]

/-- Unfolding of `updateVisibility` with parameters hidden and no focus. -/
theorem updateVisibility_nofocus (st : GraphState)
    (hsp : st.showParams = false) (hf : st.focus = none) :
    updateVisibility st =
      ({ st with nodes := st.nodes.map (setNodeVisibility st.showParams),
                 edges := st.edges.map (setEdgeVisibility st.showParams) },
        ⟨(st.nodes.map (setNodeVisibility st.showParams)).filter
            (fun n => n.visible),
          (st.edges.map (setEdgeVisibility st.showParams)).filter
            (fun e => e.visible)⟩) := by
  unfold updateVisibility
  rw [hf, hsp, if_neg (by simp)]

/-- C2: for every graph state with a focus node `f` set, the graph returned
by `updateVisibility` contains only nodes that are `f` itself or have an
edge to or from `f` in the full graph, and only edges whose source or
target key is `f`; every returned node and edge also satisfies the
parameter-visibility condition in force (no constraint when `showParams` is
true, non-param resources otherwise). -/
theorem c2_updateVisibility_focus_subgraph (st : GraphState) (f : String)
    (hf : st.focus = some f) :
    (∀ n ∈ (updateVisibility st).2.nodes,
      (n.id = f ∨ hasEdgeB st n.id f = true ∨ hasEdgeB st f n.id = true)
      ∧ (st.showParams = false → n.resourceType ≠ "param"))
    ∧ (∀ e ∈ (updateVisibility st).2.edges,
      (e.v = f ∨ e.w = f)
      ∧ (st.showParams = false →
          e.sourceType ≠ "param" ∧ e.targetType ≠ "param")) := by
  rw [updateVisibility_focus st f hf]
  constructor
  · intro n hn
    simp only [List.mem_filter, List.mem_map] at hn
    obtain ⟨⟨m1, ⟨m0, hm0, rfl⟩, rfl⟩, hvis⟩ := hn
    simp only [focusNodeVis, Bool.and_eq_true, Bool.or_eq_true,
      beq_iff_eq, setNodeVisibility_id] at hvis
    obtain ⟨hv1, hv2⟩ := hvis
    constructor
    · simpa [focusNodeVis, setNodeVisibility_id, or_assoc] using hv2
    · intro hsp
      rw [hsp] at hv1
      rw [setNodeVisibility_visible_false] at hv1
      simp only [focusNodeVis, setNodeVisibility_resourceType]
      simpa [bne_iff_ne] using hv1
  · intro e he
    simp only [List.mem_filter, List.mem_map] at he
    obtain ⟨⟨m1, ⟨m0, hm0, rfl⟩, rfl⟩, hvis⟩ := he
    simp only [focusEdgeVis, Bool.and_eq_true, Bool.or_eq_true,
      beq_iff_eq, setEdgeVisibility_v, setEdgeVisibility_w] at hvis
    obtain ⟨hv1, hv2⟩ := hvis
    constructor
    · simpa [focusEdgeVis, setEdgeVisibility_v, setEdgeVisibility_w] using hv2
    · intro hsp
      rw [hsp] at hv1
      rw [setEdgeVisibility_visible_false] at hv1
      simp only [focusEdgeVis, setEdgeVisibility_sourceType,
        setEdgeVisibility_targetType]
      constructor
      · have := (Bool.and_eq_true _ _).mp hv1
        simpa [bne_iff_ne] using this.1
      · have := (Bool.and_eq_true _ _).mp hv1
        simpa [bne_iff_ne] using this.2

theorem c2_witness :
    exGraphFocus.focus = some "n1"
    ∧ ((∀ n ∈ (updateVisibility exGraphFocus).2.nodes,
        (n.id = "n1" ∨ hasEdgeB exGraphFocus n.id "n1" = true
          ∨ hasEdgeB exGraphFocus "n1" n.id = true)
        ∧ (exGraphFocus.showParams = false → n.resourceType ≠ "param"))
      ∧ (∀ e ∈ (updateVisibility exGraphFocus).2.edges,
        (e.v = "n1" ∨ e.w = "n1")
        ∧ (exGraphFocus.showParams = false →
            e.sourceType ≠ "param" ∧ e.targetType ≠ "param"))) :=
  ⟨rfl, c2_updateVisibility_focus_subgraph exGraphFocus "n1" rfl⟩

theorem filter_visible_map_nodes :
    ∀ (l : List NodeV),
      ((l.map (setNodeVisibility false)).filter (fun n => n.visible))
        = (l.filter (fun n => n.resourceType != "param")).map
            (fun n => { n with visible := true }) := by
  intro l
  induction l with
  | nil => rfl
  | cons n rest ih =>
    simp only [List.map_cons, List.filter_cons]
    cases hp : (n.resourceType != "param") with
    | true =>
      have hv : (setNodeVisibility false n).visible = true := by
        rw [setNodeVisibility_visible_false, hp]
      have hn : setNodeVisibility false n = { n with visible := true } := by
        simp [setNodeVisibility, hp]
      simp [hv, hn, ih]
    | false =>
      have hv : (setNodeVisibility false n).visible = false := by
        rw [setNodeVisibility_visible_false, hp]
      simp [hv, hp, ih]

theorem filter_visible_map_edges :
    ∀ (l : List EdgeV),
      ((l.map (setEdgeVisibility false)).filter (fun e => e.visible))
        = (l.filter (fun e =>
            (e.sourceType != "param") && (e.targetType != "param"))).map
            (fun e => { e with visible := true }) := by
  intro l
  induction l with
  | nil => rfl
  | cons e rest ih =>
    simp only [List.map_cons, List.filter_cons]
    cases hp : ((e.sourceType != "param") && (e.targetType != "param")) with
    | true =>
      have hv : (setEdgeVisibility false e).visible = true := by
        rw [setEdgeVisibility_visible_false, hp]
      have hn : setEdgeVisibility false e = { e with visible := true } := by
        simp [setEdgeVisibility, hp]
      simp [hv, hn, ih]
    | false =>
      have hv : (setEdgeVisibility false e).visible = false := by
        rw [setEdgeVisibility_visible_false, hp]
      simp [hv, hp, ih]

/-- C3: with `showParams` off and no focus set, `updateVisibility` returns
exactly the non-param nodes of the full graph and exactly the edges with
both endpoints non-param, each with its `visible` flag set to true, while
in the mutated graph every node's (edge's) `visible` flag is true exactly
when it is non-param (has non-param endpoints). -/
theorem c3_updateVisibility_param_hiding (st : GraphState)
    (hsp : st.showParams = false) (hf : st.focus = none) :
    ((updateVisibility st).2.nodes
        = (st.nodes.filter (fun n => n.resourceType != "param")).map
            (fun n => { n with visible := true }))
    ∧ ((updateVisibility st).2.edges
        = (st.edges.filter (fun e =>
            (e.sourceType != "param") && (e.targetType != "param"))).map
            (fun e => { e with visible := true }))
    ∧ (∀ n ∈ (updateVisibility st).1.nodes,
        n.visible = (n.resourceType != "param"))
    ∧ (∀ e ∈ (updateVisibility st).1.edges,
        e.visible = ((e.sourceType != "param") && (e.targetType != "param"))) := by
  simp only [updateVisibility_nofocus st hsp hf, hsp]
  refine ⟨filter_visible_map_nodes st.nodes, filter_visible_map_edges st.edges,
    ?_, ?_⟩
  · intro n hn
    simp only [List.mem_map] at hn
    obtain ⟨m, hm, rfl⟩ := hn
    rw [setNodeVisibility_visible_false, setNodeVisibility_resourceType]
  · intro e he
    simp only [List.mem_map] at he
    obtain ⟨m, hm, rfl⟩ := he
    rw [setEdgeVisibility_visible_false, setEdgeVisibility_sourceType,
      setEdgeVisibility_targetType]

theorem c3_witness :
    exGraphNoFocus.showParams = false
    ∧ exGraphNoFocus.focus = none
    ∧ (((updateVisibility exGraphNoFocus).2.nodes
        = (exGraphNoFocus.nodes.filter (fun n => n.resourceType != "param")).map
            (fun n => { n with visible := true }))
      ∧ ((updateVisibility exGraphNoFocus).2.edges
        = (exGraphNoFocus.edges.filter (fun e =>
            (e.sourceType != "param") && (e.targetType != "param"))).map
            (fun e => { e with visible := true }))
      ∧ (∀ n ∈ (updateVisibility exGraphNoFocus).1.nodes,
          n.visible = (n.resourceType != "param"))
      ∧ (∀ e ∈ (updateVisibility exGraphNoFocus).1.edges,
          e.visible = ((e.sourceType != "param")
            && (e.targetType != "param")))) :=
  ⟨rfl, rfl, c3_updateVisibility_param_hiding exGraphNoFocus rfl rfl⟩

theorem cgLoop_closed_form :
    ∀ (l : List FLaunch),
      cgLoop l
        = ((l.filter (fun d1 => d1.selected == some true)).map
            (fun d1 => (d1.name, launchArgs d1)),
          (l.filter (fun d1 => d1.selected == some false)).map
            (fun d1 => d1.name)) := by
  intro l
  induction l with
  | nil => rfl
  | cons d1 rest ih =>
    cases hsel : d1.selected with
    | none => simp [cgLoop, hsel, ih]
    | some b =>
      cases b with
      | true => simp [cgLoop, hsel, ih]
      | false => simp [cgLoop, hsel, ih]

/-- C4: the request body built by `cgRequestData` partitions the top-level
children by their tri-state `selected` field: the `launch` list holds
exactly one `{name, args}` entry for each strictly selected launch file (in
order), the `discard` list exactly the names of the strictly deselected
ones, and children with `selected == null` contribute to neither list. -/
theorem c4_cgRequestData_partition (fm : FeatureModel) :
    (cgRequestData fm).launch
      = (fm.children.filter (fun d1 => d1.selected == some true)).map
          (fun d1 => (d1.name, launchArgs d1))
    ∧ (cgRequestData fm).discard
      = (fm.children.filter (fun d1 => d1.selected == some false)).map
          (fun d1 => d1.name) := by
  constructor
  · show (cgLoop fm.children).1 = _
    rw [cgLoop_closed_form]
  · show (cgLoop fm.children).2 = _
    rw [cgLoop_closed_form]

/-- C5: for every selected launch file, the `args` object built by
`cgRequestData` has exactly one entry per arg child, mapping the arg's name
to the name of its first selected value child when that value is resolved,
to that child's `value` field when it is unresolved, and to `null` when the
arg itself has `selected == null`. -/
theorem c5_cgRequestData_args (fm : FeatureModel) (d1 : FLaunch)
    (h1 : d1 ∈ fm.children) (h2 : d1.selected = some true) :
    ((d1.name, launchArgs d1) ∈ (cgRequestData fm).launch)
    ∧ (launchArgs d1).length = d1.children.length
    ∧ (∀ (i : Nat) (d2 : FArg), d1.children[i]? = some d2 →
        (launchArgs d1)[i]? = some (d2.name, argEntry d2)
        ∧ (d2.selected = none → argEntry d2 = none)
        ∧ (∀ d3 : FValue, d2.selected = some true →
            d2.children.find? (fun v => v.selected == some true) = some d3 →
              argEntry d2 = (if d3.resolved then some d3.name else d3.value))) := by
  refine ⟨?_, ?_, ?_⟩
  · have hc : (cgRequestData fm).launch
        = (fm.children.filter (fun d1 => d1.selected == some true)).map
            (fun d1 => (d1.name, launchArgs d1)) := by
      show (cgLoop fm.children).1 = _
      rw [cgLoop_closed_form]
    rw [hc]
    exact List.mem_map.mpr ⟨d1, List.mem_filter.mpr ⟨h1, by simp [h2]⟩, rfl⟩
  · simp [launchArgs]
  · intro i d2 hi
    refine ⟨?_, ?_, ?_⟩
    · simp [launchArgs, List.getElem?_map, hi]
    · intro hnone
      simp [argEntry, hnone]
    · intro d3 hsel hfind
      simp [argEntry, hsel, hfind]

theorem c5_witness :
    exLaunchA ∈ exFM.children
    ∧ exLaunchA.selected = some true
    ∧ (((exLaunchA.name, launchArgs exLaunchA) ∈ (cgRequestData exFM).launch)
      ∧ (launchArgs exLaunchA).length = exLaunchA.children.length
      ∧ (∀ (i : Nat) (d2 : FArg), exLaunchA.children[i]? = some d2 →
          (launchArgs exLaunchA)[i]? = some (d2.name, argEntry d2)
          ∧ (d2.selected = none → argEntry d2 = none)
          ∧ (∀ d3 : FValue, d2.selected = some true →
              d2.children.find? (fun v => v.selected == some true) = some d3 →
                argEntry d2
                  = (if d3.resolved then some d3.name else d3.value)))) :=
  ⟨by decide, rfl, c5_cgRequestData_args exFM exLaunchA (by decide) rfl⟩

theorem setValueSelected_dataSelected {d d1 : VNode} {ask : Bool}
    {pr : Option String} (h : setValueSelected d ask pr = some d1) :
    d1.dataSelected = some true := by
  unfold setValueSelected at h
  split at h
  · split at h
    · split at h
      · simp at h
      · rename_i s
        by_cases he : s.isEmpty = true
        · rw [if_pos he] at h
          simp at h
        · rw [if_neg he] at h
          obtain rfl := Option.some.inj h
          rfl
    · obtain rfl := Option.some.inj h
      rfl
  · obtain rfl := Option.some.inj h
    rfl

theorem countP_set_one :
    ∀ (cs : List VNode) (i : Nat) (d1 : VNode),
      (∀ d ∈ cs, d.dataSelected = some false) →
      d1.dataSelected = some true →
      i < cs.length →
      (cs.set i d1).countP (fun d => d.dataSelected == some true) = 1
      ∧ ∀ d ∈ cs.set i d1,
          d.dataSelected = some true ∨ d.dataSelected = some false := by
  intro cs
  induction cs with
  | nil =>
    intro i d1 _ _ hi
    simp at hi
  | cons c rest ih =>
    intro i d1 hall hd1 hi
    cases i with
    | zero =>
      constructor
      · simp only [List.set]
        rw [List.countP_cons]
        have hz : rest.countP (fun d => d.dataSelected == some true) = 0 := by
          apply List.countP_eq_zero.mpr
          intro d hd
          simp [hall d (List.mem_cons_of_mem c hd)]
        simp [hz, hd1]
      · intro d hd
        simp only [List.set, List.mem_cons] at hd
        rcases hd with rfl | hd
        · exact Or.inl hd1
        · exact Or.inr (hall d (List.mem_cons_of_mem c hd))
    | succ j =>
      have hj : j < rest.length := by
        simp at hi
        omega
      have hallr : ∀ d ∈ rest, d.dataSelected = some false :=
        fun d hd => hall d (List.mem_cons_of_mem c hd)
      obtain ⟨ih1, ih2⟩ := ih j d1 hallr hd1 hj
      constructor
      · simp only [List.set]
        rw [List.countP_cons]
        have hcf : c.dataSelected = some false :=
          hall c (List.mem_cons_self c rest)
        simp [ih1, hcf]
      · intro d hd
        simp only [List.set, List.mem_cons] at hd
        rcases hd with rfl | hd
        · exact Or.inr (hall d (List.mem_cons_self d rest))
        · exact ih2 d hd

/-- C6: XOR/radio invariant: for every arg node with `selected` strictly
true and a nonempty list of value children, when `propagateArgSelection`
completes successfully (returns true, i.e. `setValueSelected` was not
cancelled at a value prompt), exactly one of the arg's value children ends
with `data.selected === true` and every other value child ends with
`data.selected === false`. -/
theorem c6_arg_xor_invariant (a : ANode) (pr : Option String) (a1 : ANode)
    (hsel : a.dataSelected = some true) (hne : a.children ≠ [])
    (h : propagateArgSelection a pr = some (a1, true)) :
    a1.children.countP (fun d => d.dataSelected == some true) = 1
    ∧ ∀ d ∈ a1.children,
        d.dataSelected = some true ∨ d.dataSelected = some false := by
  unfold propagateArgSelection at h
  rw [hsel] at h
  rw [if_pos (show truthy (some true) = true from rfl)] at h
  split at h
  · simp at h
  · rename_i c hc
    split at h
    · simp at h
    · rename_i d1 hs
      have e := Option.some.inj h
      have e1 : a1 = { a with
          children := (resetChildren a).set (chosenIdx a (resetChildren a)) d1,
          uiPreviousValue := some d1.id } := by
        have := congrArg Prod.fst e
        simpa [hsel] using this.symm
      subst e1
      have hd1 : d1.dataSelected = some true := setValueSelected_dataSelected hs
      have hall : ∀ d ∈ resetChildren a, d.dataSelected = some false := by
        intro d hd
        simp only [resetChildren, List.mem_map] at hd
        obtain ⟨m, _, rfl⟩ := hd
        rfl
      have hi : chosenIdx a (resetChildren a) < (resetChildren a).length := by
        by_contra hcon
        push_neg at hcon
        rw [List.getElem?_eq_none hcon] at hc
        exact absurd hc (by simp)
      exact countP_set_one (resetChildren a) _ d1 hall hd1 hi

theorem c6_witness :
    exArgX.dataSelected = some true
    ∧ exArgX.children ≠ []
    ∧ propagateArgSelection exArgX none = some (exArgXres, true)
    ∧ (exArgXres.children.countP (fun d => d.dataSelected == some true) = 1
      ∧ ∀ d ∈ exArgXres.children,
          d.dataSelected = some true ∨ d.dataSelected = some false) :=
  ⟨rfl, by decide, by decide,
    c6_arg_xor_invariant exArgX none exArgXres rfl (by decide) (by decide)⟩

theorem truthy_eq_true_iff {o : Option Bool} : truthy o = true ↔ o = some true := by
  cases o with
  | none => simp [truthy]
  | some b => cases b <;> simp [truthy]

theorem propagateArgSelection_fst_dataSelected {a : ANode} {pr : Option String}
    {p : ANode × Bool} (h : propagateArgSelection a pr = some p) :
    p.1.dataSelected = a.dataSelected := by
  unfold propagateArgSelection at h
  split at h
  · split at h
    · simp at h
    · rename_i c hc
      split at h
      · obtain rfl := Option.some.inj h
        rfl
      · rename_i d1 hs
        obtain rfl := Option.some.inj h
        rfl
  · obtain rfl := Option.some.inj h
    rfl

theorem propagateRosLaunchSelection_fields {l l1 : LNode}
    (h : propagateRosLaunchSelection l = some l1) :
    l1.dataSelected = l.dataSelected ∧ l1.uiSelected = l.uiSelected := by
  unfold propagateRosLaunchSelection at h
  split at h
  · split at h
    · obtain rfl := Option.some.inj h
      exact ⟨rfl, rfl⟩
    · simp at h
  · split at h
    · obtain rfl := Option.some.inj h
      exact ⟨rfl, rfl⟩
    · simp at h

theorem getElem?_set_self' {α : Type} :
    ∀ (l : List α) (i : Nat) (x : α), i < l.length →
      (l.set i x)[i]? = some x := by
  intro l
  induction l with
  | nil =>
    intro i x hi
    simp at hi
  | cons a rest ih =>
    intro i x hi
    cases i with
    | zero => simp [List.set]
    | succ j =>
      have hj : j < rest.length := by
        simp at hi
        omega
      simp only [List.set]
      rw [List.getElem?_cons_succ]
      exact ih j x hj

/-- C7: upward propagation: for every value node with `data.selected` true
(located by `ai`/`vi` inside its launch subtree), a successful run of
`propagateValueSelection` leaves the parent arg node with
`data.selected === true` and the grandparent roslaunch node with
`data.selected === true`. -/
theorem c7_value_upward_propagation (l : LNode) (ai vi : Nat)
    (pr : Option String) (l1 : LNode) (arg0 : ANode) (src : VNode)
    (ha : l.children[ai]? = some arg0)
    (hv : arg0.children[vi]? = some src)
    (hsrc : src.dataSelected = some true)
    (h : propagateValueSelection l ai vi pr = some l1) :
    l1.dataSelected = some true
    ∧ ∃ arg1, l1.children[ai]? = some arg1
        ∧ arg1.dataSelected = some true := by
  unfold propagateValueSelection at h
  split at h
  · simp at h
  · rename_i arg0' ha'
    split at h
    · simp at h
    · rename_i src' hv'
      split at h
      · simp at h
      · rename_i l2 hl2
        split at h
        · simp at h
        · rename_i arg1' harg1
          split at h
          · simp at h
          · rename_i p hp
            obtain rfl := Option.some.inj h
            have hl2sel : l2.dataSelected = some true := by
              by_cases htr : truthy l.dataSelected = true
              · rw [if_pos htr] at hl2
                obtain rfl := Option.some.inj hl2
                exact truthy_eq_true_iff.mp htr
              · rw [if_neg htr] at hl2
                exact (propagateRosLaunchSelection_fields hl2).1
            constructor
            · exact hl2sel
            · refine ⟨p.1, ?_, ?_⟩
              · have hlt : ai < l2.children.length := by
                  by_contra hcon
                  push_neg at hcon
                  rw [List.getElem?_eq_none hcon] at harg1
                  exact absurd harg1 (by simp)
                exact getElem?_set_self' l2.children ai p.1 hlt
              · exact propagateArgSelection_fst_dataSelected hp

theorem c7_witness :
    exLaunchY.children[0]? = some exArgX
    ∧ exArgX.children[0]? = some exVal1
    ∧ exVal1.dataSelected = some true
    ∧ propagateValueSelection exLaunchY 0 0 none = some exLaunchYres
    ∧ (exLaunchYres.dataSelected = some true
      ∧ ∃ arg1, exLaunchYres.children[0]? = some arg1
          ∧ arg1.dataSelected = some true) :=
  ⟨rfl, rfl, rfl, by decide,
    c7_value_upward_propagation exLaunchY 0 0 none exLaunchYres exArgX exVal1
      rfl rfl rfl (by decide)⟩

/-- C8 counterexample: at a value-tree node whose datum disagrees with its
user-provenance field (`value = true`, `userValue = false`, i.e. automatic
provenance), the claim predicts that a label click only copies the data
state into the UI state without changing the data (result `(true, true)`),
but `onValueLabelClick` advances the cycle instead, changing the data to
`false`. -/
theorem c8_counterexample :
    onValueLabelClickDatum (some true) (some false) = (some false, some false)
    ∧ ¬ onValueLabelClickDatum (some true) (some false)
        = (some true, some true) := by
  constructor
  · rfl
  · decide

/-- C8 (amended): a label click on a roslaunch node whose UI state agrees
with its data state advances both along the cycle true → false → null →
true; when they disagree, the click only copies the data state into the UI
state without changing the data or the children.  A label click in the
value tree (`onValueLabelClick`) advances the clicked node's
`value`/`userValue` pair along the same cycle unconditionally, regardless
of whether `value` and `userValue` agree. -/
theorem c8_amended_tristate :
    (∀ (l l1 : LNode), l.uiSelected = l.dataSelected →
      onSelectRosLaunch l = some l1 →
        l1.dataSelected = cycleSel l.dataSelected
        ∧ l1.uiSelected = cycleSel l.dataSelected)
    ∧ (∀ l : LNode, l.uiSelected ≠ l.dataSelected →
        onSelectRosLaunch l = some { l with uiSelected := l.dataSelected })
    ∧ (∀ v uv : Option Bool,
        onValueLabelClickDatum v uv = (cycleSel v, cycleSel v)) := by
  refine ⟨?_, ?_, ?_⟩
  · intro l l1 hagree h
    unfold onSelectRosLaunch at h
    rw [if_neg (by simp [hagree])] at h
    have hf := propagateRosLaunchSelection_fields h
    exact ⟨hf.1, hf.2⟩
  · intro l hne
    unfold onSelectRosLaunch
    rw [if_pos hne]
  · intro v uv
    cases v with
    | none => rfl
    | some b => cases b <;> rfl

theorem c8_witness :
    exLaunchZ.uiSelected = exLaunchZ.dataSelected
    ∧ onSelectRosLaunch exLaunchZ = some exLaunchZres
    ∧ (exLaunchZres.dataSelected = cycleSel exLaunchZ.dataSelected
      ∧ exLaunchZres.uiSelected = cycleSel exLaunchZ.dataSelected)
    ∧ onValueLabelClickDatum none none = (cycleSel none, cycleSel none) :=
  ⟨rfl, by decide,
    (c8_amended_tristate.1 exLaunchZ exLaunchZres rfl (by decide)),
    c8_amended_tristate.2.2 none none⟩
